import Mathlib

/-!
Shallow embedding of the multi-source retrieval and citation-diversification
engine of `src/langchain_engine/enhanced_query_engine.py` and of the raster
hotspot analyzer of `src/analysis/cisi_analyzer.py` (repository
`marcosci/osint-chain`).

Text is modelled as `List Char`; Python's substring test `pat in s` becomes
`containsSub s pat`.  All definitions are executable and translated directly
from the Python source.
-/

/-- Text values (Python `str`) are modelled as lists of characters. -/
abbrev Text := List Char

/-- Python's substring containment `pat in s`. -/
def containsSub (s pat : Text) : Bool :=
  s.tails.any (fun t => pat.isPrefixOf t)

/-- The literal `"References"` checked by the verifier in
`EnhancedQueryEngine.query`. -/
def refMarker : Text := "References".data

/-- The literal `"<sup>["` checked by the verifier in
`EnhancedQueryEngine.query`. -/
def supMarker : Text := "<sup>[".data

/-- The citation-integrity verification step of `EnhancedQueryEngine.query`
(the body of the `intermediate_steps` loop applied to one
`knowledge_base_search` observation): given the raw tool `observation` and the
agent `output`, return the possibly corrected output.

Python source:
```
if "References" in observation:
    if "References" not in output:
        output = observation
    elif "<sup>[" in observation and "<sup>[" not in output:
        output = observation
```
-/
def verifyCitations (observation output : Text) : Text :=
  if containsSub observation refMarker then
    if containsSub output refMarker then
      if containsSub observation supMarker && !containsSub output supMarker then
        observation
      else output
    else observation
  else output

/-- Concrete observation from the spec's verifier-recovery scenario. -/
def obsStripped : Text := "X<sup>[1]</sup>.\n---\n**References**\n1. A (2021)".data

/-- Concrete stripped final answer from the spec's verifier-recovery scenario. -/
def finStripped : Text := "X.".data

/-- Observation carrying an inline citation but no references block. -/
def obsSupOnly : Text := "X<sup>[1]</sup>.".data

/-- Final answer with neither citations nor references. -/
def finSupOnly : Text := "X.".data

/-- Observation with both an inline citation and a references block. -/
def obsFull : Text := "X<sup>[1]</sup>.\n---\n**References**\n1. A (2021)".data

/-- Final answer that kept the references block but lost the inline citation. -/
def finKeptRefs : Text := "X.\n---\n**References**\n1. A (2021)".data

/-- A retrieved document: its text plus the two metadata fields the engine
reads.  `none` models an absent metadata key (so `metadata.get` falls back to
its default). -/
structure Doc where
  page_content : Text
  source_name : Option Text
  source_year : Option Text
  deriving DecidableEq

instance : Inhabited Doc := ⟨⟨[], none, none⟩⟩

/-- Python `metadata.get('source_name', 'Unknown')`. -/
def srcName (d : Doc) : Text := d.source_name.getD "Unknown".data

/-- Python `metadata.get('source_year', '?')`. -/
def srcYear (d : Doc) : Text := d.source_year.getD "?".data

/-- The grouping key `source_key = f"{source}_{year}"`. -/
def sourceKey (d : Doc) : Text := srcName d ++ "_".data ++ srcYear d

/-- The keys of the `sources_seen` dict in insertion order: first appearance
order over the pool (Python dicts preserve insertion order). -/
def keysInOrder (docs : List Doc) : List Text :=
  docs.foldl (fun acc d => if sourceKey d ∈ acc then acc else acc ++ [sourceKey d]) []

/-- Group `sources_seen[k]`: the documents of the pool with source key `k`,
preserving pool order (the dict groups by append). -/
def groupOf (docs : List Doc) (k : Text) : List Doc :=
  docs.filter (fun d => decide (sourceKey d = k))

/-- Cap `max_per_source` as a function of the number of distinct source keys:
`8` when at most 2 sources, `4` when at most 4, else `2`. -/
def maxPerSource (numSources : Nat) : Nat :=
  if numSources ≤ 2 then 8 else if numSources ≤ 4 then 4 else 2

/-- One round of the strict round-robin selection (the inner
`for source_key in source_keys` loop of STEP 4): in round `r`, append the
`r`-th document of each source group in key order, as long as fewer than
`budget` documents have been selected. -/
def pickRound (budget : Nat) (pool : List Doc) : List Text → Nat → List Doc → List Doc
  | [], _, acc => acc
  | k :: ks, r, acc =>
    let g := groupOf pool k
    if h : r < g.length ∧ acc.length < budget then
      pickRound budget pool ks r (acc ++ [g.get ⟨r, h.1⟩])
    else
      pickRound budget pool ks r acc

/-- The outer `for round_num in range(max_per_source)` loop: run `n` more
rounds starting at round number `r`. -/
def rrRounds (budget : Nat) (pool : List Doc) (keys : List Text) :
    Nat → Nat → List Doc → List Doc
  | 0, _, acc => acc
  | n + 1, r, acc => rrRounds budget pool keys n (r + 1) (pickRound budget pool keys r acc)

/-- STEP 4 of `rag_search`: the strict round-robin source-balanced selection
of the working set (`docs` in the source), parameterised by the working-set
budget (the source hard-codes 15). -/
def rrSelect (budget : Nat) (pool : List Doc) : List Doc :=
  let keys := keysInOrder pool
  rrRounds budget pool keys (maxPerSource keys.length) 0 []

/-- The working set exactly as `rag_search` computes it (budget 15). -/
def workingSet (pool : List Doc) : List Doc := rrSelect 15 pool

/-- Number of documents of a list carrying source key `k`. -/
def countKey (k : Text) (docs : List Doc) : Nat :=
  docs.countP (fun d => decide (sourceKey d = k))

/-- First document of the group of key `k` (`source_docs[0]`). -/
def firstDoc (pool : List Doc) (k : Text) : Doc := (groupOf pool k).headI

/-- Pool from the spec's end-to-end scenario: three documents from source
"EPR (2021)" and two from "CIA World Factbook (2024)". -/
def samplePool : List Doc :=
  [⟨"Mali has 18 ethnic groups.".data, some "EPR".data, some "2021".data⟩,
   ⟨"Ethnic power relations in Mali are contested.".data, some "EPR".data, some "2021".data⟩,
   ⟨"Excluded groups in the north.".data, some "EPR".data, some "2021".data⟩,
   ⟨"Mali population is 21M.".data, some "CIA World Factbook".data, some "2024".data⟩,
   ⟨"Mali GDP is 15.3B.".data, some "CIA World Factbook".data, some "2024".data⟩]

/-- The content fingerprint used for deduplication in STEP 2 of `rag_search`
(`content_hash = hash(doc.page_content[:200])`): the deterministic hash is
modelled by the 200-character prefix itself, which the hash is a function
of. -/
def fingerprint (d : Doc) : Text := d.page_content.take 200

/-- The inner `for doc in docs[:15]` loop of STEP 2: scan a retrieved batch,
appending each document whose fingerprint has not been seen and recording its
fingerprint.  The state is `(all_docs, seen_content)`. -/
def addDocs (p : List Doc × List Text) (docs : List Doc) : List Doc × List Text :=
  docs.foldl
    (fun p doc =>
      if fingerprint doc ∈ p.2 then p else (p.1 ++ [doc], p.2 ++ [fingerprint doc]))
    p

/-- The `for rq in related_queries[:3]` loop body applied to a whole variant
list (without the `[:3]` cap): per variant, fetch and scan the top 15
documents. -/
def aggCore (retrieve : Text → List Doc) (variants : List Text)
    (p : List Doc × List Text) : List Doc × List Text :=
  variants.foldl (fun p rq => addDocs p ((retrieve rq).take 15)) p

/-- STEP 2 of `rag_search`: multi-query aggregation with fingerprint
deduplication.  `retrieve` models the candidate retriever
(`retriever.get_relevant_documents`); only the first 3 variants are used
(`related_queries[:3]`) and the top 15 documents per variant are scanned. -/
def aggregate (retrieve : Text → List Doc) (variants : List Text) : List Doc :=
  (aggCore retrieve (variants.take 3) ([], [])).1

/-- A one-document-per-query retriever used for concrete evaluations. -/
def retrieveOne : Text → List Doc := fun q => [⟨q, none, none⟩]

/-- Label `source_label = f"{source} ({year})"` (STEP 5). -/
def sourceLabel (d : Doc) : Text := srcName d ++ " (".data ++ srcYear d ++ ")".data

/-- List `sources_list`: the labels of the working set in selection order. -/
def sourcesList (ws : List Doc) : List Text := ws.map sourceLabel

/-- Decimal text of a number (an f-string interpolation of an `int`). -/
def natText (n : Nat) : Text := (Nat.repr n).data

/-- The context entries of STEP 5 starting at citation number `i`:
`f"[Source {citation_num}] {source_label}:\n{doc_content}\n"` with
`doc_content = doc.page_content[:1000]` and `citation_num` counting up
from 1. -/
def contextParts (i : Nat) : List Doc → List Text
  | [] => []
  | d :: ds =>
    ("[Source ".data ++ natText i ++ "] ".data ++ sourceLabel d ++ ":\n".data ++
      d.page_content.take 1000 ++ "\n".data) :: contextParts (i + 1) ds

/-- The block `context = "\n".join(context_parts)`. -/
def contextBlock (ws : List Doc) : Text := List.intercalate "\n".data (contextParts 1 ws)

/-- The reference lines built by
`for i, source in enumerate(sources_list, 1): references_section += f"{i}. {source}\n"`. -/
def refLines (i : Nat) : List Text → List Text
  | [] => []
  | s :: ss => (natText i ++ ". ".data ++ s ++ "\n".data) :: refLines (i + 1) ss

/-- The section `references_section = "\n\n---\n**References**\n"` followed by the
numbered reference lines. -/
def referencesSection (ws : List Doc) : Text :=
  "\n\n---\n**References**\n".data ++ (refLines 1 (sourcesList ws)).flatten

/-- The numbered source list interpolated into the prompt:
`chr(10).join([f"{i}. {src}" for i, src in enumerate(sources_list, 1)])`. -/
def enumLines (i : Nat) : List Text → List Text
  | [] => []
  | s :: ss => (natText i ++ ". ".data ++ s) :: enumLines (i + 1) ss

/-- Fixed fragment 1 of the `citation_prompt` f-string of STEP 6. -/
def promptTpl1 : Text :=
  "You are a research analyst providing evidence-based answers with rigorous citations.\n\nYou have ".data

/-- Fixed fragment 2 of the `citation_prompt` f-string of STEP 6. -/
def promptTpl2 : Text :=
  " source documents from different datasets. Your task is to:\n1. Answer the question comprehensively using information from MULTIPLE DIVERSE SOURCES\n2. Cite EVERY factual claim with inline superscript citations: <sup>[1]</sup>, <sup>[2]</sup>, etc.\n3. Use AT LEAST 3-5 DIFFERENT sources in your answer (spread citations across different source numbers)\n4. Place citations IMMEDIATELY after the fact/claim, BEFORE punctuation\n5. Verify each claim exists in the source before citing\n\n\uF8FF\u00FC\u00EC\u00F6 AVAILABLE SOURCES (use multiple):\n".data

/-- Fixed fragment 3 of the `citation_prompt` f-string of STEP 6. -/
def promptTpl3 : Text :=
  "\n\n\uF8FF\u00FC\u00EC\u00F9 CITATION RULES:\n- \u201A\u00FA\u00D6 GOOD: \"Mali has 18 ethnic groups<sup>[1]</sup> with varying political status<sup>[3]</sup>.\"\n- \u201A\u00FA\u00D6 GOOD: \"The GDP is $15.3B<sup>[2]</sup> and population is 21M<sup>[4]</sup>.\"\n- \u201A\u00F9\u00E5 BAD: Only using <sup>[1]</sup> repeatedly\n- \u201A\u00F9\u00E5 BAD: No citations or missing citations\n\n\uF8FF\u00FC\u00EC\u00F1 SOURCE CONTENT:\n".data

/-- Fixed fragment 4 of the `citation_prompt` f-string of STEP 6. -/
def promptTpl4 : Text :=
  "\n\n\u201A\u00F9\u00EC QUESTION: ".data

/-- Fixed fragment 5 of the `citation_prompt` f-string of STEP 6. -/
def promptTpl5 : Text :=
  "\n\n\uF8FF\u00FC\u00EC\u00E4 ANSWER (with citations from AT LEAST 3 different sources):".data

/-- STEP 6's `citation_prompt`: the template with its four interpolations
(source count, numbered source list, context block, query).  The non-ASCII
characters reproduce the bytes of the source file. -/
def citationPrompt (query : Text) (ws : List Doc) : Text :=
  promptTpl1 ++ natText (sourcesList ws).length ++ promptTpl2 ++
    List.intercalate "\n".data (enumLines 1 (sourcesList ws)) ++ promptTpl3 ++
    contextBlock ws ++ promptTpl4 ++ query ++ promptTpl5

/-- STEPS 6-9 of `rag_search` for a non-empty working set: build the
citation prompt, invoke the completion service (`self.llm.invoke`, modelled
as the function `complete`), and append the deterministic references
section (`answer_text += references_section`). -/
def ragAnswer (complete : Text → Text) (query : Text) (ws : List Doc) : Text :=
  complete (citationPrompt query ws) ++ referencesSection ws

/-- A one-document working set for concrete evaluations. -/
def wsOne : List Doc :=
  [⟨"Mali has 18 ethnic groups.".data, some "EPR".data, some "2021".data⟩]

/-- A completion service that ignores its prompt and answers a constant. -/
def completeConst : Text → Text := fun _ => "ANS".data

/-- The literal `"]</sup>"`, the closing text of the citation-marker regex
`<sup>\[(\d+)\]</sup>` of `_extract_citations`. -/
def supClose : Text := "]</sup>".data

/-- Python `int(...)` on a run of decimal digits. -/
def digitsToNat (ds : Text) : Nat :=
  ds.foldl (fun acc c => acc * 10 + (c.toNat - Char.toNat (Char.ofNat 48))) 0

/-- One attempt of the regex `<sup>\[(\d+)\]</sup>` at the head of `t`: on
success, the cited number and the remainder of the text after the match
(`re.findall` resumes scanning there). -/
def matchCitation (t : Text) : Option (Nat × Text) :=
  if supMarker.isPrefixOf t then
    let r1 := t.drop 6
    let ds := r1.takeWhile Char.isDigit
    let r2 := r1.dropWhile Char.isDigit
    if ds ≠ [] ∧ supClose.isPrefixOf r2 then some (digitsToNat ds, r2.drop 7)
    else none
  else none

/-- Fuel-bounded scanning loop of `re.findall(r'<sup>\[(\d+)\]</sup>', text)`:
at each position try a match — on success record the number and resume after
the match, otherwise advance one character.  Each step consumes at least one
character, so fuel `t.length` suffices. -/
def scanCitationsF : Nat → Text → List Nat
  | 0, _ => []
  | _ + 1, [] => []
  | fuel + 1, c :: cs =>
    match matchCitation (c :: cs) with
    | some (n, rest) => n :: scanCitationsF fuel rest
    | none => scanCitationsF fuel cs

/-- Model of `re.findall(r'<sup>\[(\d+)\]</sup>', text)` with each match converted to
its number: the scanning loop with sufficient fuel. -/
def scanCitations (t : Text) : List Nat := scanCitationsF t.length t

/-- Model of `_extract_citations`: `sorted(set(int(m) for m in findall))` — the
distinct cited numbers in ascending order. -/
def extractCitations (t : Text) : List Nat :=
  (scanCitations t).dedup.insertionSort (· ≤ ·)

/-- A raster crop (`out_image[0]` after `rasterio.mask` with `nodata=0`) as a
row-major matrix of cell values, modelled over the rationals. -/
abbrev Raster := List (List Rat)

/-- Selection `valid_data = data[data > 0]`: the positive cells in row-major order. -/
def validData (m : Raster) : List Rat := m.flatten.filter (fun v => decide (0 < v))

/-- A statistics value: an exactly-represented rational, or the square root
of a rational — `np.std` is the square root of the mean squared deviation,
kept symbolically since it is irrational in general. -/
inductive StatVal where
  | q : Rat → StatVal
  | sqrtOf : Rat → StatVal
  deriving DecidableEq

/-- Ascending sorted copy of the data (numpy's order statistics sort). -/
def sortedAsc (l : List Rat) : List Rat := l.insertionSort (· ≤ ·)

/-- Model of `np.mean`. -/
def npMean (l : List Rat) : Rat := l.sum / l.length

/-- Model of `np.median`: middle of the sorted data; for even length, the average of
the two middle elements. -/
def npMedian (l : List Rat) : Rat :=
  let s := sortedAsc l
  let n := s.length
  if n % 2 = 1 then s.getD (n / 2) 0
  else (s.getD (n / 2 - 1) 0 + s.getD (n / 2) 0) / 2

/-- Model of `np.percentile` with its default linear interpolation: virtual position
`(p/100)*(n-1)` between the sorted order statistics. -/
def npPercentile (l : List Rat) (p : Rat) : Rat :=
  let s := sortedAsc l
  let n := s.length
  let pos : Rat := p / 100 * ((n : Rat) - 1)
  let k : Nat := pos.floor.toNat
  let frac : Rat := pos - (k : Rat)
  if k + 1 < n then s.getD k 0 + frac * (s.getD (k + 1) 0 - s.getD k 0)
  else s.getD k 0

/-- Population variance: the square of `np.std` (`ddof = 0`). -/
def npVariance (l : List Rat) : Rat :=
  (l.map (fun v => (v - npMean l) ^ 2)).sum / l.length

/-- Model of `CISIAnalyzer.compute_zonal_statistics` applied to the cropped raster,
as a key/value list in the insertion order of the Python dict.  Opening the
raster file and cropping to the bounds (`rasterio.mask`) stay outside the
model: the function receives the crop.  With no positive cells it returns
the zeroed seven-key record; otherwise the full record including the three
percentile keys. -/
def compute_zonal_statistics (m : Raster) : List (String × StatVal) :=
  let valid := validData m
  if valid.length = 0 then
    [("mean", .q 0), ("median", .q 0), ("std", .q 0), ("min", .q 0),
     ("max", .q 0), ("sum", .q 0), ("count", .q 0)]
  else
    [("mean", .q (npMean valid)), ("median", .q (npMedian valid)),
     ("std", .sqrtOf (npVariance valid)),
     ("min", .q (valid.foldl min valid.headI)),
     ("max", .q (valid.foldl max valid.headI)),
     ("sum", .q valid.sum),
     ("count", .q valid.length),
     ("percentile_75", .q (npPercentile valid 75)),
     ("percentile_90", .q (npPercentile valid 90)),
     ("percentile_95", .q (npPercentile valid 95))]

/-- Affine geotransform of the crop (`out_transform`):
`x = a*col + b*row + c`, `y = d*col + e*row + f`. -/
structure Affine where
  a : Rat
  b : Rat
  c : Rat
  d : Rat
  e : Rat
  f : Rat
  deriving DecidableEq

/-- Model of `rasterio.transform.xy(transform, row, col)` with the default centre
offset: world coordinates of the centre of pixel `(row, col)`. -/
def transformXY (t : Affine) (row col : Nat) : Rat × Rat :=
  (t.c + t.a * ((col : Rat) + 1/2) + t.b * ((row : Rat) + 1/2),
   t.f + t.d * ((col : Rat) + 1/2) + t.e * ((row : Rat) + 1/2))

/-- Cell value at `(row, col)` (`data[row, col]`). -/
def cellAt (m : Raster) (row col : Nat) : Rat := (m.getD row []).getD col 0

/-- Row-major coordinates of the binary hotspot mask
(`hotspot_mask = data > threshold`). -/
def maskCoords (m : Raster) (thr : Rat) : List (Nat × Nat) :=
  (m.enum.map (fun rc =>
    rc.2.enum.filterMap (fun cv =>
      if thr < cv.2 then some (rc.1, cv.1) else none))).flatten

/-- Four-adjacency of pixels (the default `ndimage.label` structuring
element). -/
def adjacent (p q : Nat × Nat) : Bool :=
  decide ((p.1 = q.1 ∧ (p.2 + 1 = q.2 ∨ q.2 + 1 = p.2)) ∨
    (p.2 = q.2 ∧ (p.1 + 1 = q.1 ∨ q.1 + 1 = p.1)))

/-- One neighbour-expansion step of a component inside the mask `s`. -/
def growComp (s : List (Nat × Nat)) (comp : List (Nat × Nat)) : List (Nat × Nat) :=
  comp ++ s.filter (fun v => decide (v ∉ comp ∧ ∃ p ∈ comp, adjacent p v = true))

/-- The connected component of `c` inside the mask `s`: the expansion
fixpoint (reached within `s.length` steps). -/
def component (s : List (Nat × Nat)) (c : Nat × Nat) : List (Nat × Nat) :=
  Nat.iterate (growComp s) s.length [c]

/-- The connected components of the mask in `ndimage.label` order: labels
are assigned by row-major scan of first-encountered cells. -/
def componentsOf (s : List (Nat × Nat)) : List (List (Nat × Nat)) :=
  s.foldl (fun acc c => if c ∈ acc.flatten then acc else acc ++ [component s c]) []

/-- A detected hotspot cluster. -/
structure Hotspot where
  lat : Rat
  lon : Rat
  intensity : Rat
  cluster_size : Nat
  rank : Nat
  deriving DecidableEq

/-- Model of `CISIAnalyzer.detect_hotspots` applied to the cropped raster and its
affine transform: threshold the positive cells at the given percentile,
binarize, label 4-connected components, drop clusters smaller than
`min_cluster_size`, take each surviving cluster's centroid (integer-mean
pixel, `int()` truncation), its intensity and world coordinates, then sort
by intensity descending (Python's stable sort) and reassign contiguous
ranks. -/
def detect_hotspots (m : Raster) (tr : Affine) (thresholdPercentile : Rat)
    (minClusterSize : Nat) : List Hotspot :=
  let valid := validData m
  if valid.length = 0 then []
  else
    let threshold := npPercentile valid thresholdPercentile
    let comps := componentsOf (maskCoords m threshold)
    let hotspots := comps.filterMap (fun comp =>
      if comp.length < minClusterSize then none
      else
        let centerY := ((comp.map (fun p => (p.1 : Rat))).sum / (comp.length : Rat)).floor.toNat
        let centerX := ((comp.map (fun p => (p.2 : Rat))).sum / (comp.length : Rat)).floor.toNat
        let xy := transformXY tr centerY centerX
        some (Hotspot.mk xy.2 xy.1 (cellAt m centerY centerX) comp.length 0))
    let prelim := hotspots.enum.map (fun ih => { ih.2 with rank := ih.1 + 1 })
    let sorted := prelim.insertionSort (fun h1 h2 => h2.intensity ≤ h1.intensity)
    sorted.enum.map (fun ih => { ih.2 with rank := ih.1 + 1 })

/-- C2: if the observation contains the references marker and the final output
does not, the verification step returns the observation in place of the final
output. -/
theorem verifier_recovers_references (observation output : Text)
    (hobs : containsSub observation refMarker = true)
    (hout : containsSub output refMarker = false) :
    verifyCitations observation output = observation := by
  simp [verifyCitations, hobs, hout]

/-- Witness for C2: the spec's concrete pair — observation
`"X<sup>[1]</sup>.\n---\n**References**\n1. A (2021)"` and stripped final
`"X."` — is returned as the observation, unchanged. -/
theorem verifier_recovers_references_witness :
    verifyCitations obsStripped finStripped = obsStripped :=
  verifier_recovers_references obsStripped finStripped (by decide) (by decide)

/-- Counterexample to C3 as stated: the observation `"X<sup>[1]</sup>."`
contains an inline citation marker and the final `"X."` contains none, yet the
verification step does NOT substitute the observation — the inline-citation
check is nested under the references-marker check, which fails here. -/
theorem verifier_sup_only_not_recovered :
    containsSub obsSupOnly supMarker = true ∧
    containsSub finSupOnly supMarker = false ∧
    verifyCitations obsSupOnly finSupOnly = finSupOnly ∧
    verifyCitations obsSupOnly finSupOnly ≠ obsSupOnly := by
  decide

/-- C3 (amended): when the observation contains the references marker and the
final output also contains it (so check (1) does not fire), and the
observation contains at least one inline citation marker while the final
output contains none, the verification step substitutes the observation. -/
theorem verifier_recovers_inline_citations (observation output : Text)
    (hobsR : containsSub observation refMarker = true)
    (houtR : containsSub output refMarker = true)
    (hobsS : containsSub observation supMarker = true)
    (houtS : containsSub output supMarker = false) :
    verifyCitations observation output = observation := by
  simp [verifyCitations, hobsR, houtR, hobsS, houtS]

/-- Witness for the amended C3: a final answer that kept the references block
but dropped the inline citation is replaced by the observation. -/
theorem verifier_recovers_inline_citations_witness :
    verifyCitations obsFull finKeptRefs = obsFull :=
  verifier_recovers_inline_citations obsFull finKeptRefs
    (by decide) (by decide) (by decide) (by decide)

theorem mem_groupOf {pool : List Doc} {k : Text} {d : Doc} (h : d ∈ groupOf pool k) :
    d ∈ pool ∧ sourceKey d = k := by
  have h2 := List.mem_filter.mp h
  exact ⟨h2.1, of_decide_eq_true h2.2⟩

theorem groupOf_ne_nil {pool : List Doc} {d : Doc} (h : d ∈ pool) :
    groupOf pool (sourceKey d) ≠ [] := by
  intro hnil
  have hd : d ∈ groupOf pool (sourceKey d) := List.mem_filter.mpr ⟨h, by simp⟩
  simp [hnil] at hd

theorem get_zero_headI (l : List Doc) (h : 0 < l.length) : l.get ⟨0, h⟩ = l.headI := by
  cases l with
  | nil => simp at h
  | cons a t => rfl

theorem firstDoc_key {pool : List Doc} {k : Text} (h : groupOf pool k ≠ []) :
    sourceKey (firstDoc pool k) = k := by
  unfold firstDoc
  cases hg : groupOf pool k with
  | nil => exact absurd hg h
  | cons a t =>
    have ha : a ∈ groupOf pool k := by rw [hg]; exact List.mem_cons_self a t
    simpa [hg, List.headI] using (mem_groupOf ha).2

theorem keysFold_nodup (docs : List Doc) (acc : List Text) (h : acc.Nodup) :
    (docs.foldl (fun a d => if sourceKey d ∈ a then a else a ++ [sourceKey d]) acc).Nodup := by
  induction docs generalizing acc with
  | nil => exact h
  | cons d ds ih =>
    simp only [List.foldl_cons]
    by_cases hmem : sourceKey d ∈ acc
    · rw [if_pos hmem]; exact ih acc h
    · rw [if_neg hmem]
      exact ih _ (by simp [List.nodup_append, h, hmem])

theorem mem_keysFold (docs : List Doc) (acc : List Text) (k : Text) :
    k ∈ docs.foldl (fun a d => if sourceKey d ∈ a then a else a ++ [sourceKey d]) acc ↔
      k ∈ acc ∨ ∃ d ∈ docs, sourceKey d = k := by
  induction docs generalizing acc with
  | nil => simp
  | cons d ds ih =>
    simp only [List.foldl_cons]
    by_cases hmem : sourceKey d ∈ acc
    · rw [if_pos hmem, ih]
      constructor
      · rintro (h | ⟨e, he, hk⟩)
        · exact Or.inl h
        · exact Or.inr ⟨e, List.mem_cons_of_mem _ he, hk⟩
      · rintro (h | ⟨e, he, hk⟩)
        · exact Or.inl h
        · rcases List.mem_cons.mp he with rfl | he2
          · exact Or.inl (hk ▸ hmem)
          · exact Or.inr ⟨e, he2, hk⟩
    · rw [if_neg hmem, ih]
      simp only [List.mem_append, List.mem_singleton]
      constructor
      · rintro ((h | h) | ⟨e, he, hk⟩)
        · exact Or.inl h
        · exact Or.inr ⟨d, List.mem_cons_self d ds, h.symm⟩
        · exact Or.inr ⟨e, List.mem_cons_of_mem _ he, hk⟩
      · rintro (h | ⟨e, he, hk⟩)
        · exact Or.inl (Or.inl h)
        · rcases List.mem_cons.mp he with rfl | he2
          · exact Or.inl (Or.inr hk.symm)
          · exact Or.inr ⟨e, he2, hk⟩

theorem nodup_keysInOrder (docs : List Doc) : (keysInOrder docs).Nodup :=
  keysFold_nodup docs [] List.nodup_nil

theorem mem_keysInOrder {docs : List Doc} {k : Text} :
    k ∈ keysInOrder docs ↔ ∃ d ∈ docs, sourceKey d = k := by
  simpa using mem_keysFold docs [] k

theorem sourceKey_mem_keysInOrder {docs : List Doc} {d : Doc} (h : d ∈ docs) :
    sourceKey d ∈ keysInOrder docs :=
  mem_keysInOrder.mpr ⟨d, h, rfl⟩

theorem groupOf_ne_nil_of_mem_keys {pool : List Doc} {k : Text}
    (h : k ∈ keysInOrder pool) : groupOf pool k ≠ [] := by
  rcases mem_keysInOrder.mp h with ⟨d, hd, rfl⟩
  exact groupOf_ne_nil hd

theorem pickRound_pre (budget : Nat) (pool : List Doc) (keys : List Text)
    (r : Nat) (acc : List Doc) : acc <+: pickRound budget pool keys r acc := by
  induction keys generalizing acc with
  | nil => exact List.prefix_rfl
  | cons k ks ih =>
    simp only [pickRound]
    split
    · exact (List.prefix_append acc _).trans (ih _)
    · exact ih acc

theorem pickRound_of_full (budget : Nat) (pool : List Doc) (keys : List Text)
    (r : Nat) (acc : List Doc) (h : budget ≤ acc.length) :
    pickRound budget pool keys r acc = acc := by
  induction keys with
  | nil => rfl
  | cons k ks ih =>
    simp only [pickRound]
    rw [dif_neg (by rintro ⟨-, h2⟩; omega)]
    exact ih

theorem rrRounds_pre (budget : Nat) (pool : List Doc) (keys : List Text)
    (n r : Nat) (acc : List Doc) : acc <+: rrRounds budget pool keys n r acc := by
  induction n generalizing r acc with
  | zero => exact List.prefix_rfl
  | succ n ih =>
    exact (pickRound_pre budget pool keys r acc).trans (ih _ _)

theorem rrRounds_of_full (budget : Nat) (pool : List Doc) (keys : List Text)
    (n r : Nat) (acc : List Doc) (h : budget ≤ acc.length) :
    rrRounds budget pool keys n r acc = acc := by
  induction n generalizing r acc with
  | zero => rfl
  | succ n ih =>
    simp only [rrRounds]
    rw [pickRound_of_full _ _ _ _ _ h]
    exact ih _ _ h

theorem pickRound_zero (budget : Nat) (pool : List Doc) (keys : List Text)
    (acc : List Doc) (hne : ∀ k ∈ keys, groupOf pool k ≠ []) :
    pickRound budget pool keys 0 acc =
      acc ++ (keys.take (budget - acc.length)).map (firstDoc pool) := by
  induction keys generalizing acc with
  | nil => simp [pickRound]
  | cons k ks ih =>
    have hk : groupOf pool k ≠ [] := hne k (List.mem_cons_self k ks)
    have hglen : 0 < (groupOf pool k).length := List.length_pos.mpr hk
    by_cases hlt : acc.length < budget
    · simp only [pickRound]
      rw [dif_pos ⟨hglen, hlt⟩]
      rw [ih _ (fun k2 h2 => hne k2 (List.mem_cons_of_mem _ h2))]
      have harith : budget - acc.length = (budget - (acc.length + 1)) + 1 := by omega
      rw [harith, List.take_succ_cons, List.map_cons, get_zero_headI _ hglen]
      simp [firstDoc, List.append_assoc]
    · have hz : budget - acc.length = 0 := by omega
      simp only [pickRound]
      rw [dif_neg (by rintro ⟨-, h2⟩; exact hlt h2)]
      rw [pickRound_of_full _ _ _ _ _ (by omega)]
      simp [hz]

theorem countKey_nil (k : Text) : countKey k [] = 0 := rfl

theorem countKey_append_one {k : Text} (acc : List Doc) (d : Doc) :
    countKey k (acc ++ [d]) = countKey k acc + (if sourceKey d = k then 1 else 0) := by
  simp [countKey, List.countP_append, List.countP_cons]

theorem countKey_pickRound_not_mem (budget : Nat) (pool : List Doc) {keys : List Text}
    {k : Text} (r : Nat) (acc : List Doc) (h : k ∉ keys) :
    countKey k (pickRound budget pool keys r acc) = countKey k acc := by
  induction keys generalizing acc with
  | nil => rfl
  | cons k2 ks ih =>
    have hk2 : k ≠ k2 ∧ k ∉ ks := by simpa [List.mem_cons] using h
    simp only [pickRound]
    split
    · rename_i hcond
      rw [ih _ hk2.2, countKey_append_one]
      have hd : sourceKey ((groupOf pool k2).get ⟨r, hcond.1⟩) = k2 :=
        (mem_groupOf (List.get_mem _ _ _)).2
      rw [hd, if_neg (Ne.symm hk2.1)]
      omega
    · exact ih _ hk2.2

theorem countKey_pickRound (budget : Nat) (pool : List Doc) {keys : List Text}
    (r : Nat) (acc : List Doc) (k : Text) (hnd : keys.Nodup) :
    countKey k (pickRound budget pool keys r acc) ≤ countKey k acc + 1 := by
  induction keys generalizing acc with
  | nil => simp [pickRound]
  | cons k2 ks ih =>
    have hnd2 : k2 ∉ ks ∧ ks.Nodup := by simpa using hnd
    by_cases hkk : k = k2
    · subst hkk
      simp only [pickRound]
      split
      · rename_i hcond
        rw [countKey_pickRound_not_mem budget pool r _ hnd2.1]
        rw [countKey_append_one]
        split <;> omega
      · rw [countKey_pickRound_not_mem budget pool r _ hnd2.1]
        omega
    · simp only [pickRound]
      split
      · rename_i hcond
        have hbound := ih (acc ++ [(groupOf pool k2).get ⟨r, hcond.1⟩]) hnd2.2
        rw [countKey_append_one] at hbound
        have hd : sourceKey ((groupOf pool k2).get ⟨r, hcond.1⟩) = k2 :=
          (mem_groupOf (List.get_mem _ _ _)).2
        rw [hd, if_neg (fun he => hkk he.symm)] at hbound
        omega
      · exact ih acc hnd2.2

theorem countKey_rrRounds (budget : Nat) (pool : List Doc) {keys : List Text}
    (n r : Nat) (acc : List Doc) (k : Text) (hnd : keys.Nodup) :
    countKey k (rrRounds budget pool keys n r acc) ≤ countKey k acc + n := by
  induction n generalizing r acc with
  | zero => simp [rrRounds]
  | succ n ih =>
    simp only [rrRounds]
    have h1 := ih (r + 1) (pickRound budget pool keys r acc)
    have h2 := countKey_pickRound budget pool r acc k hnd
    omega

/-- C8: the working set produced by `rag_search` contains at most
`max_per_source` documents from any single source key, where the cap is 8
when the pool has at most 2 distinct source keys, 4 when it has 3 or 4, and 2
when it has more than 4. -/
theorem per_source_cap (pool : List Doc) (k : Text) :
    countKey k (workingSet pool) ≤
      (if (keysInOrder pool).length ≤ 2 then 8
       else if (keysInOrder pool).length ≤ 4 then 4 else 2) := by
  have h := countKey_rrRounds 15 pool
    (maxPerSource (keysInOrder pool).length) 0 [] k (nodup_keysInOrder pool)
  rw [countKey_nil] at h
  simpa [workingSet, rrSelect, maxPerSource] using h

/-- C6: the round-robin selection involves no randomization — two runs on
pools with the same documents, the same metadata and the same order, with the
same budget, produce identical working sets in identical order. -/
theorem round_robin_deterministic (budget : Nat) (pool1 pool2 : List Doc)
    (h : pool1 = pool2) : rrSelect budget pool1 = rrSelect budget pool2 := by
  rw [h]

theorem exists_two_cons {l : List Text} (h : 2 ≤ l.length) :
    ∃ a b t, l = a :: b :: t := by
  cases l with
  | nil => simp at h
  | cons a t =>
    cases t with
    | nil => simp at h
    | cons b u => exact ⟨a, b, u, rfl⟩

theorem two_le_length_of_two_mem {l : List Text} {x y : Text} (hx : x ∈ l) (hy : y ∈ l)
    (hxy : x ≠ y) : 2 ≤ l.length := by
  cases l with
  | nil => simp at hx
  | cons a t =>
    cases t with
    | nil =>
      simp at hx hy
      exact absurd (hx.trans hy.symm) hxy
    | cons b u => simp only [List.length_cons]; omega

theorem countKey_map_firstDoc_le_one (pool : List Doc) (l : List Text) (hl : l.Nodup)
    (hne : ∀ x ∈ l, groupOf pool x ≠ []) (k : Text) :
    countKey k (l.map (firstDoc pool)) ≤ 1 := by
  induction l with
  | nil => simp [countKey]
  | cons a t ih =>
    have hnd : a ∉ t ∧ t.Nodup := by simpa using hl
    have ha : sourceKey (firstDoc pool a) = a := firstDoc_key (hne a (List.mem_cons_self a t))
    by_cases hak : a = k
    · subst hak
      have hz : countKey a (t.map (firstDoc pool)) = 0 := by
        simp only [countKey]
        rw [List.countP_eq_zero]
        intro d hd
        rcases List.mem_map.mp hd with ⟨x, hx, rfl⟩
        have hxk : sourceKey (firstDoc pool x) = x :=
          firstDoc_key (hne x (List.mem_cons_of_mem _ hx))
        simp only [hxk, decide_eq_true_eq]
        exact fun he => hnd.1 (he ▸ hx)
      simp only [List.map_cons, countKey, List.countP_cons] at *
      rw [hz]
      simp [ha]
    · have hrec := ih hnd.2 (fun x hx => hne x (List.mem_cons_of_mem _ hx))
      simp only [List.map_cons, countKey, List.countP_cons] at *
      rw [ha]
      simp only [decide_eq_true_eq]
      rw [if_neg hak]
      omega

/-- C1: no starvation in source balancing.  If the pool has at least two
distinct source keys and the working-set budget is at least two, then (1) the
working set contains documents from at least two distinct source keys, and
(2) whenever any source contributes a second document, the selection starts
with the first document of every source key present in the pool, in key
order — every source contributes its first document before any source
contributes a second.  (The source hard-codes budget 15.) -/
theorem no_starvation (budget : Nat) (pool : List Doc)
    (hb : 2 ≤ budget) (hk : 2 ≤ (keysInOrder pool).length) :
    2 ≤ (keysInOrder (rrSelect budget pool)).length ∧
    ((∃ k ∈ (rrSelect budget pool).map sourceKey, 2 ≤ countKey k (rrSelect budget pool)) →
      keysInOrder pool <+: (rrSelect budget pool).map sourceKey) := by
  have hnd : (keysInOrder pool).Nodup := nodup_keysInOrder pool
  have hgne : ∀ k ∈ keysInOrder pool, groupOf pool k ≠ [] :=
    fun k hk2 => groupOf_ne_nil_of_mem_keys hk2
  have hmps : ∃ m, maxPerSource (keysInOrder pool).length = m + 1 := by
    unfold maxPerSource
    split
    · exact ⟨7, rfl⟩
    · split
      · exact ⟨3, rfl⟩
      · exact ⟨1, rfl⟩
  obtain ⟨m, hm⟩ := hmps
  have hout : rrSelect budget pool =
      rrRounds budget pool (keysInOrder pool) m 1
        (((keysInOrder pool).take budget).map (firstDoc pool)) := by
    show rrRounds budget pool (keysInOrder pool)
        (maxPerSource (keysInOrder pool).length) 0 [] = _
    rw [hm]
    simp only [rrRounds]
    rw [pickRound_zero budget pool (keysInOrder pool) [] hgne]
    simp
  constructor
  · -- at least two distinct keys in the working set
    obtain ⟨k1, k2, ks, hsplit⟩ := exists_two_cons hk
    obtain ⟨c, rfl⟩ : ∃ c, budget = c + 2 := ⟨budget - 2, by omega⟩
    have hk1 : k1 ∈ keysInOrder pool := by rw [hsplit]; exact List.mem_cons_self _ _
    have hk2 : k2 ∈ keysInOrder pool := by
      rw [hsplit]; exact List.mem_cons_of_mem _ (List.mem_cons_self _ _)
    have hne12 : k1 ≠ k2 := by
      rw [hsplit] at hnd
      have := (List.nodup_cons.mp hnd).1
      exact fun he => this (he ▸ List.mem_cons_self _ _)
    have htake : ((keysInOrder pool).take (c + 2)).map (firstDoc pool) =
        firstDoc pool k1 :: firstDoc pool k2 :: ((ks.take c).map (firstDoc pool)) := by
      rw [hsplit, List.take_succ_cons, List.take_succ_cons, List.map_cons, List.map_cons]
    have hpre : ((keysInOrder pool).take (c + 2)).map (firstDoc pool) <+:
        rrSelect (c + 2) pool := by
      rw [hout]
      exact rrRounds_pre _ _ _ _ _ _
    have hsub := hpre.subset
    have hf1 : firstDoc pool k1 ∈ rrSelect (c + 2) pool := by
      apply hsub; rw [htake]; exact List.mem_cons_self _ _
    have hf2 : firstDoc pool k2 ∈ rrSelect (c + 2) pool := by
      apply hsub; rw [htake]; exact List.mem_cons_of_mem _ (List.mem_cons_self _ _)
    have hm1 := sourceKey_mem_keysInOrder hf1
    have hm2 := sourceKey_mem_keysInOrder hf2
    rw [firstDoc_key (hgne k1 hk1)] at hm1
    rw [firstDoc_key (hgne k2 hk2)] at hm2
    exact two_le_length_of_two_mem hm1 hm2 hne12
  · -- first-before-second
    rintro ⟨k, hkmem, hcnt⟩
    by_cases hcase : budget ≤ (keysInOrder pool).length
    · have hlen0 : (((keysInOrder pool).take budget).map (firstDoc pool)).length = budget := by
        rw [List.length_map, List.length_take]
        omega
      have houtA : rrSelect budget pool =
          ((keysInOrder pool).take budget).map (firstDoc pool) := by
        rw [hout]
        exact rrRounds_of_full _ _ _ _ _ _ (by omega)
      have hle1 := countKey_map_firstDoc_le_one pool ((keysInOrder pool).take budget)
        ((List.take_sublist _ _).nodup hnd)
        (fun x hx => hgne x ((List.take_sublist _ _).subset hx)) k
      rw [houtA] at hcnt
      have : False := by omega
      exact this.elim
    · have htake : (keysInOrder pool).take budget = keysInOrder pool :=
        List.take_of_length_le (by omega)
      have hpre : (keysInOrder pool).map (firstDoc pool) <+: rrSelect budget pool := by
        rw [hout, htake]
        exact rrRounds_pre _ _ _ _ _ _
      obtain ⟨t, ht⟩ := hpre
      refine ⟨t.map sourceKey, ?_⟩
      rw [← ht, List.map_append, List.map_map]
      have hcg : (keysInOrder pool).map (sourceKey ∘ firstDoc pool) = keysInOrder pool := by
        have hid : (keysInOrder pool).map (sourceKey ∘ firstDoc pool) =
            (keysInOrder pool).map id :=
          List.map_congr_left (fun a ha => firstDoc_key (hgne a ha))
        rw [hid, List.map_id]
      rw [hcg]

/-- Witness for C1: with the scenario pool and budget 4, the working set
draws from at least two distinct sources and the round-robin order puts every
source's first document ahead of any second contribution. -/
theorem no_starvation_witness :
    2 ≤ (keysInOrder (rrSelect 4 samplePool)).length ∧
    ((∃ k ∈ (rrSelect 4 samplePool).map sourceKey, 2 ≤ countKey k (rrSelect 4 samplePool)) →
      keysInOrder samplePool <+: (rrSelect 4 samplePool).map sourceKey) :=
  no_starvation 4 samplePool (by decide) (by decide)

/-- Witness for C6: two runs of the selection on the same pool with the
source's budget 15 coincide. -/
theorem round_robin_deterministic_witness :
    rrSelect 15 samplePool = rrSelect 15 samplePool :=
  round_robin_deterministic 15 samplePool samplePool rfl

theorem seen_mono_addDocs (docs : List Doc) (p : List Doc × List Text) :
    p.2 ⊆ (addDocs p docs).2 := by
  induction docs generalizing p with
  | nil => exact fun a ha => ha
  | cons d ds ih =>
    simp only [addDocs, List.foldl_cons]
    by_cases hd : fingerprint d ∈ p.2
    · rw [if_pos hd]; exact ih p
    · rw [if_neg hd]
      exact fun a ha => ih _ (List.mem_append_left _ ha)

theorem seen_mono_aggCore (retrieve : Text → List Doc) (variants : List Text)
    (p : List Doc × List Text) : p.2 ⊆ (aggCore retrieve variants p).2 := by
  induction variants generalizing p with
  | nil => exact fun a ha => ha
  | cons v vs ih =>
    simp only [aggCore, List.foldl_cons]
    exact fun a ha => ih _ (seen_mono_addDocs _ _ ha)

theorem fingerprint_mem_addDocs (docs : List Doc) (p : List Doc × List Text)
    {d : Doc} (hd : d ∈ docs) : fingerprint d ∈ (addDocs p docs).2 := by
  induction docs generalizing p with
  | nil => simp at hd
  | cons e es ih =>
    simp only [addDocs, List.foldl_cons]
    rcases List.mem_cons.mp hd with rfl | hd2
    · by_cases he : fingerprint d ∈ p.2
      · rw [if_pos he]
        exact seen_mono_addDocs es p he
      · rw [if_neg he]
        exact seen_mono_addDocs es _ (List.mem_append_right _ (List.mem_singleton.mpr rfl))
    · by_cases he : fingerprint e ∈ p.2
      · rw [if_pos he]; exact ih p hd2
      · rw [if_neg he]; exact ih _ hd2

theorem addDocs_of_seen (docs : List Doc) (p : List Doc × List Text)
    (h : ∀ d ∈ docs, fingerprint d ∈ p.2) : addDocs p docs = p := by
  induction docs with
  | nil => rfl
  | cons d ds ih =>
    simp only [addDocs, List.foldl_cons]
    rw [if_pos (h d (List.mem_cons_self d ds))]
    exact ih (fun e he => h e (List.mem_cons_of_mem _ he))

theorem fingerprint_mem_aggCore (retrieve : Text → List Doc) (variants : List Text)
    (p : List Doc × List Text) {q : Text} (hq : q ∈ variants) {d : Doc}
    (hd : d ∈ (retrieve q).take 15) :
    fingerprint d ∈ (aggCore retrieve variants p).2 := by
  induction variants generalizing p with
  | nil => simp at hq
  | cons v vs ih =>
    simp only [aggCore, List.foldl_cons]
    rcases List.mem_cons.mp hq with rfl | hq2
    · exact seen_mono_aggCore retrieve vs _ (fingerprint_mem_addDocs _ p hd)
    · exact ih _ hq2

theorem aggCore_dup (retrieve : Text → List Doc) (q : Text) (xs ys : List Text)
    (p : List Doc × List Text) (hq : q ∈ xs) :
    aggCore retrieve (xs ++ q :: ys) p = aggCore retrieve (xs ++ ys) p := by
  have h1 : aggCore retrieve (xs ++ q :: ys) p =
      aggCore retrieve ys (addDocs (aggCore retrieve xs p) ((retrieve q).take 15)) := by
    simp only [aggCore, List.foldl_append, List.foldl_cons]
  have h2 : aggCore retrieve (xs ++ ys) p = aggCore retrieve ys (aggCore retrieve xs p) := by
    simp only [aggCore, List.foldl_append]
  rw [h1, h2, addDocs_of_seen _ _ (fun d hd => fingerprint_mem_aggCore retrieve xs p hq hd)]

/-- C7 (amended): deduplication is idempotent up to the variant cap — when
the variant list including the duplicate has at most 3 entries (the source
only reads `related_queries[:3]`), aggregating with a duplicate of an earlier
variant produces the same candidate pool, with the same documents in the same
order, as aggregating without it. -/
theorem dedup_idempotent (retrieve : Text → List Doc) (q : Text) (xs ys : List Text)
    (hq : q ∈ xs) (hlen : (xs ++ q :: ys).length ≤ 3) :
    aggregate retrieve (xs ++ q :: ys) = aggregate retrieve (xs ++ ys) := by
  have hlen2 : (xs ++ ys).length ≤ 3 := by
    simp only [List.length_append, List.length_cons] at hlen ⊢
    omega
  unfold aggregate
  rw [List.take_of_length_le hlen, List.take_of_length_le hlen2]
  rw [aggCore_dup retrieve q xs ys ([], []) hq]

/-- Counterexample to C7 as stated: with the variant cap `[:3]`, inserting a
duplicate of the original question `"Q"` displaces the distinct variant
`"B"`, so the candidate pools differ. -/
theorem dedup_not_idempotent_uncapped :
    aggregate retrieveOne ["Q".data, "Q".data, "A".data, "B".data] ≠
      aggregate retrieveOne ["Q".data, "A".data, "B".data] := by
  decide

/-- Witness for the amended C7: with at most 3 variants, the duplicate of the
original question is a no-op. -/
theorem dedup_idempotent_witness :
    aggregate retrieveOne (["Q".data] ++ "Q".data :: ["A".data]) =
      aggregate retrieveOne (["Q".data] ++ ["A".data]) :=
  dedup_idempotent retrieveOne "Q".data ["Q".data] ["A".data] (by decide) (by decide)

theorem refLines_length (i : Nat) (l : List Text) : (refLines i l).length = l.length := by
  induction l generalizing i with
  | nil => rfl
  | cons s ss ih => simp [refLines, ih]

theorem refLines_get (l : List Text) (i j : Nat) (h : j < l.length) :
    (refLines i l).get ⟨j, by rw [refLines_length]; exact h⟩ =
      natText (i + j) ++ ". ".data ++ l.get ⟨j, h⟩ ++ "\n".data := by
  induction l generalizing i j with
  | nil => simp at h
  | cons s ss ih =>
    cases j with
    | zero => simp [refLines]
    | succ j2 =>
      have h2 : j2 < ss.length := by simpa using h
      have := ih (i + 1) j2 h2
      simp only [refLines, List.get_cons_succ]
      rw [this]
      have hidx : i + 1 + j2 = i + (j2 + 1) := by omega
      rw [hidx]

theorem contextParts_length (i : Nat) (ws : List Doc) :
    (contextParts i ws).length = ws.length := by
  induction ws generalizing i with
  | nil => rfl
  | cons d ds ih => simp [contextParts, ih]

theorem contextParts_get (ws : List Doc) (i j : Nat) (h : j < ws.length) :
    (contextParts i ws).get ⟨j, by rw [contextParts_length]; exact h⟩ =
      "[Source ".data ++ natText (i + j) ++ "] ".data ++ sourceLabel (ws.get ⟨j, h⟩) ++
        ":\n".data ++ (ws.get ⟨j, h⟩).page_content.take 1000 ++ "\n".data := by
  induction ws generalizing i j with
  | nil => simp at h
  | cons d ds ih =>
    cases j with
    | zero => simp [contextParts]
    | succ j2 =>
      have h2 : j2 < ds.length := by simpa using h
      have := ih (i + 1) j2 h2
      simp only [contextParts, List.get_cons_succ]
      rw [this]
      have hidx : i + 1 + j2 = i + (j2 + 1) := by omega
      rw [hidx]

theorem sourcesList_get (ws : List Doc) (j : Nat) (h : j < ws.length) :
    (sourcesList ws).get ⟨j, by simp [sourcesList]; exact h⟩ =
      sourceLabel (ws.get ⟨j, h⟩) := by
  simp [sourcesList]

/-- C5: for every non-empty working set of `k` documents and any completion
output, the answer returned by `rag_search` is the completion output followed
by the references section; the references section is a suffix of the answer,
has exactly `k` numbered entries, entry `j` (0-based) reading
`"{j+1}. {source_name} ({source_year})"` for the `j`-th working-set document,
and the `j`-th context entry shown to the generation step is numbered by the
same `j+1` — regardless of what the completion text contains. -/
theorem references_deterministic (complete : Text → Text) (query : Text)
    (ws : List Doc) (hne : ws ≠ []) :
    ragAnswer complete query ws =
      complete (citationPrompt query ws) ++ referencesSection ws ∧
    referencesSection ws <:+ ragAnswer complete query ws ∧
    (refLines 1 (sourcesList ws)).length = ws.length ∧
    (∀ j (h : j < ws.length),
      (refLines 1 (sourcesList ws)).get
          ⟨j, by rw [refLines_length]; simpa [sourcesList] using h⟩ =
        natText (j + 1) ++ ". ".data ++ sourceLabel (ws.get ⟨j, h⟩) ++ "\n".data ∧
      (contextParts 1 ws).get ⟨j, by rw [contextParts_length]; exact h⟩ =
        "[Source ".data ++ natText (j + 1) ++ "] ".data ++ sourceLabel (ws.get ⟨j, h⟩) ++
          ":\n".data ++ (ws.get ⟨j, h⟩).page_content.take 1000 ++ "\n".data) := by
  refine ⟨rfl, ⟨complete (citationPrompt query ws), rfl⟩, ?_, ?_⟩
  · rw [refLines_length]
    simp [sourcesList]
  · intro j h
    constructor
    · have hj : j < (sourcesList ws).length := by simpa [sourcesList] using h
      have := refLines_get (sourcesList ws) 1 j hj
      rw [this]
      rw [Nat.add_comm 1 j]
      congr 2
      exact sourcesList_get ws j h
    · have := contextParts_get ws 1 j h
      rw [this, Nat.add_comm 1 j]

/-- Witness for C5: the single-document working set with a constant
completion output. -/
theorem references_deterministic_witness :
    ragAnswer completeConst "q".data wsOne =
      completeConst (citationPrompt "q".data wsOne) ++ referencesSection wsOne ∧
    referencesSection wsOne <:+ ragAnswer completeConst "q".data wsOne ∧
    (refLines 1 (sourcesList wsOne)).length = wsOne.length ∧
    (∀ j (h : j < wsOne.length),
      (refLines 1 (sourcesList wsOne)).get
          ⟨j, by rw [refLines_length]; simpa [sourcesList] using h⟩ =
        natText (j + 1) ++ ". ".data ++ sourceLabel (wsOne.get ⟨j, h⟩) ++ "\n".data ∧
      (contextParts 1 wsOne).get ⟨j, by rw [contextParts_length]; exact h⟩ =
        "[Source ".data ++ natText (j + 1) ++ "] ".data ++ sourceLabel (wsOne.get ⟨j, h⟩) ++
          ":\n".data ++ (wsOne.get ⟨j, h⟩).page_content.take 1000 ++ "\n".data) :=
  references_deterministic completeConst "q".data wsOne (by decide)

theorem isPrefixOf_eq_true_iff {p x : Text} : p.isPrefixOf x = true ↔ p <+: x :=
  List.isPrefixOf_iff_prefix

theorem matchCitation_some_elim {t : Text} {n : Nat} {rest : Text}
    (h : matchCitation t = some (n, rest)) :
    supMarker.isPrefixOf t = true ∧
    (t.drop 6).takeWhile Char.isDigit ≠ [] ∧
    supClose.isPrefixOf ((t.drop 6).dropWhile Char.isDigit) = true ∧
    n = digitsToNat ((t.drop 6).takeWhile Char.isDigit) ∧
    rest = ((t.drop 6).dropWhile Char.isDigit).drop 7 := by
  simp only [matchCitation] at h
  split_ifs at h with h1 h2
  · rw [Option.some.injEq, Prod.mk.injEq] at h
    exact ⟨h1, h2.1, h2.2, h.1.symm, h.2.symm⟩

theorem matchCitation_some_intro {t : Text}
    (h1 : supMarker.isPrefixOf t = true)
    (h2 : (t.drop 6).takeWhile Char.isDigit ≠ [])
    (h3 : supClose.isPrefixOf ((t.drop 6).dropWhile Char.isDigit) = true) :
    matchCitation t =
      some (digitsToNat ((t.drop 6).takeWhile Char.isDigit),
        ((t.drop 6).dropWhile Char.isDigit).drop 7) := by
  simp only [matchCitation]
  rw [if_pos h1, if_pos ⟨h2, h3⟩]

theorem matchCitation_length {t : Text} {n : Nat} {rest : Text}
    (h : matchCitation t = some (n, rest)) : rest.length < t.length := by
  obtain ⟨h1, -, -, -, hrest⟩ := matchCitation_some_elim h
  have hp : 6 ≤ t.length := by
    have hl := (isPrefixOf_eq_true_iff.mp h1).length_le
    have h6 : supMarker.length = 6 := rfl
    omega
  have hdw := (List.dropWhile_sublist (l := t.drop 6) Char.isDigit).length_le
  have hd6 : (t.drop 6).length = t.length - 6 := List.length_drop 6 t
  have hr : rest.length = ((t.drop 6).dropWhile Char.isDigit).length - 7 := by
    rw [hrest, List.length_drop]
  omega

theorem scanCitationsF_congr : ∀ (f : Nat) (g : Nat) (t : Text), t.length ≤ f →
    t.length ≤ g → scanCitationsF f t = scanCitationsF g t := by
  intro f
  induction f with
  | zero =>
    intro g t hf _
    have ht : t = [] := List.length_eq_zero.mp (Nat.le_zero.mp hf)
    subst ht
    cases g with
    | zero => rfl
    | succ g2 => rfl
  | succ f2 ih =>
    intro g t hf hg
    cases t with
    | nil =>
      cases g with
      | zero => rfl
      | succ g2 => rfl
    | cons c cs =>
      cases g with
      | zero => simp at hg
      | succ g2 =>
        simp only [scanCitationsF]
        cases hm : matchCitation (c :: cs) with
        | some val =>
          obtain ⟨n, rest⟩ := val
          have hlt : rest.length < (c :: cs).length := matchCitation_length hm
          have h1 : rest.length ≤ f2 := by
            simp only [List.length_cons] at hf hlt
            omega
          have h2 : rest.length ≤ g2 := by
            simp only [List.length_cons] at hg hlt
            omega
          show n :: scanCitationsF f2 rest = n :: scanCitationsF g2 rest
          rw [ih g2 rest h1 h2]
        | none =>
          have h1 : cs.length ≤ f2 := by
            simp only [List.length_cons] at hf
            omega
          have h2 : cs.length ≤ g2 := by
            simp only [List.length_cons] at hg
            omega
          show scanCitationsF f2 cs = scanCitationsF g2 cs
          rw [ih g2 cs h1 h2]

theorem scanCitations_cons_some {c : Char} {cs : Text} {n : Nat} {rest : Text}
    (h : matchCitation (c :: cs) = some (n, rest)) :
    scanCitations (c :: cs) = n :: scanCitations rest := by
  have hlt : rest.length < (c :: cs).length := matchCitation_length h
  show scanCitationsF (c :: cs).length (c :: cs) = _
  rw [List.length_cons]
  simp only [scanCitationsF]
  rw [h]
  show n :: scanCitationsF cs.length rest = n :: scanCitations rest
  unfold scanCitations
  rw [scanCitationsF_congr cs.length rest.length rest
    (by simp only [List.length_cons] at hlt; omega) (Nat.le_refl _)]

theorem scanCitations_cons_none {c : Char} {cs : Text}
    (h : matchCitation (c :: cs) = none) :
    scanCitations (c :: cs) = scanCitations cs := by
  show scanCitationsF (c :: cs).length (c :: cs) = _
  rw [List.length_cons]
  simp only [scanCitationsF]
  rw [h]
  show scanCitationsF cs.length cs = scanCitations cs
  rfl

theorem mem_extractCitations {t : Text} {n : Nat} :
    n ∈ extractCitations t ↔ n ∈ scanCitations t := by
  unfold extractCitations
  rw [List.mem_insertionSort, List.mem_dedup]

theorem scanCitations_nil : scanCitations [] = [] := rfl

theorem isDigit_newline : Char.isDigit (Char.ofNat 10) = false := by decide

theorem newline_cons (t2 : Text) : "\n".data ++ t2 = Char.ofNat 10 :: t2 := rfl

theorem takeWhile_digits_append (u t2 : Text) :
    (u ++ Char.ofNat 10 :: t2).takeWhile Char.isDigit = u.takeWhile Char.isDigit := by
  induction u with
  | nil => simp [List.takeWhile_cons, isDigit_newline]
  | cons c cu ih =>
    simp only [List.cons_append, List.takeWhile_cons]
    cases hc : Char.isDigit c
    · simp
    · simp only [ih]

theorem dropWhile_digits_append (u t2 : Text) :
    (u ++ Char.ofNat 10 :: t2).dropWhile Char.isDigit =
      u.dropWhile Char.isDigit ++ Char.ofNat 10 :: t2 := by
  induction u with
  | nil => simp [List.dropWhile_cons, isDigit_newline]
  | cons c cu ih =>
    simp only [List.cons_append, List.dropWhile_cons]
    cases hc : Char.isDigit c
    · simp
    · simpa using ih

theorem isPrefixOf_append_left {p x : Text} (b : Text) (h : p.isPrefixOf x = true) :
    p.isPrefixOf (x ++ b) = true := by
  rw [isPrefixOf_eq_true_iff] at h ⊢
  exact h.trans (List.prefix_append x b)

theorem isPrefixOf_of_append {p x b : Text} (h : p.isPrefixOf (x ++ b) = true)
    (hlen : p.length ≤ x.length) : p.isPrefixOf x = true := by
  rw [isPrefixOf_eq_true_iff] at h ⊢
  rw [List.prefix_iff_eq_take] at h ⊢
  exact h.trans (List.take_append_of_le_length hlen)

theorem prefix_char_at {p x : Text} (t2 : Text)
    (h : p.isPrefixOf (x ++ Char.ofNat 10 :: t2) = true) (hlt : x.length < p.length) :
    p[x.length]? = some (Char.ofNat 10) := by
  rw [isPrefixOf_eq_true_iff] at h
  obtain ⟨t, ht⟩ := h
  have h1 : (x ++ Char.ofNat 10 :: t2)[x.length]? = some (Char.ofNat 10) := by
    rw [List.getElem?_append_right (Nat.le_refl _)]
    simp
  rw [← ht, List.getElem?_append_left hlt] at h1
  exact h1

theorem supMarker_cross {x : Text} (t2 : Text)
    (h : supMarker.isPrefixOf (x ++ Char.ofNat 10 :: t2) = true) (hne : x ≠ []) :
    supMarker.isPrefixOf x = true ∧ 6 ≤ x.length := by
  by_cases hlen : 6 ≤ x.length
  · exact ⟨isPrefixOf_of_append h hlen, hlen⟩
  · exfalso
    have hx1 : 0 < x.length := List.length_pos.mpr hne
    have hchar := prefix_char_at t2 h (by have h6 : supMarker.length = 6 := rfl; omega)
    have h15 : x.length = 1 ∨ x.length = 2 ∨ x.length = 3 ∨ x.length = 4 ∨ x.length = 5 := by
      omega
    rcases h15 with h5 | h5 | h5 | h5 | h5 <;> rw [h5] at hchar <;>
      exact absurd hchar (by decide)

theorem supClose_cross {u : Text} (t2 : Text)
    (h : supClose.isPrefixOf (u ++ Char.ofNat 10 :: t2) = true) :
    supClose.isPrefixOf u = true ∧ 7 ≤ u.length := by
  by_cases hlen : 7 ≤ u.length
  · exact ⟨isPrefixOf_of_append h hlen, hlen⟩
  · exfalso
    have hchar := prefix_char_at t2 h (by have h7 : supClose.length = 7 := rfl; omega)
    have h06 : u.length = 0 ∨ u.length = 1 ∨ u.length = 2 ∨ u.length = 3 ∨
        u.length = 4 ∨ u.length = 5 ∨ u.length = 6 := by omega
    rcases h06 with h6 | h6 | h6 | h6 | h6 | h6 | h6 <;> rw [h6] at hchar <;>
      exact absurd hchar (by decide)

theorem matchCitation_extend {x : Text} (t2 : Text) {n : Nat} {xr : Text}
    (h : matchCitation x = some (n, xr)) :
    matchCitation (x ++ Char.ofNat 10 :: t2) = some (n, xr ++ Char.ofNat 10 :: t2) := by
  obtain ⟨h1, h2, h3, hn, hxr⟩ := matchCitation_some_elim h
  have hx6 : 6 ≤ x.length := by
    have hl := (isPrefixOf_eq_true_iff.mp h1).length_le
    have h6 : supMarker.length = 6 := rfl
    omega
  have hdrop : (x ++ Char.ofNat 10 :: t2).drop 6 = x.drop 6 ++ Char.ofNat 10 :: t2 :=
    List.drop_append_of_le_length hx6
  have h1b : supMarker.isPrefixOf (x ++ Char.ofNat 10 :: t2) = true :=
    isPrefixOf_append_left _ h1
  have htw : ((x ++ Char.ofNat 10 :: t2).drop 6).takeWhile Char.isDigit =
      (x.drop 6).takeWhile Char.isDigit := by
    rw [hdrop]; exact takeWhile_digits_append _ _
  have hdw : ((x ++ Char.ofNat 10 :: t2).drop 6).dropWhile Char.isDigit =
      (x.drop 6).dropWhile Char.isDigit ++ Char.ofNat 10 :: t2 := by
    rw [hdrop]; exact dropWhile_digits_append _ _
  have h3b : supClose.isPrefixOf
      (((x ++ Char.ofNat 10 :: t2).drop 6).dropWhile Char.isDigit) = true := by
    rw [hdw]; exact isPrefixOf_append_left _ h3
  have h2b : ((x ++ Char.ofNat 10 :: t2).drop 6).takeWhile Char.isDigit ≠ [] := by
    rw [htw]; exact h2
  rw [matchCitation_some_intro h1b h2b h3b, htw, hdw]
  have h7 : 7 ≤ ((x.drop 6).dropWhile Char.isDigit).length := by
    have hl := (isPrefixOf_eq_true_iff.mp h3).length_le
    have hc7 : supClose.length = 7 := rfl
    omega
  rw [List.drop_append_of_le_length h7, hn, hxr]

theorem matchCitation_cross {x : Text} (t2 : Text) {n : Nat} {rest : Text}
    (hne : x ≠ []) (h : matchCitation (x ++ Char.ofNat 10 :: t2) = some (n, rest)) :
    ∃ xr, matchCitation x = some (n, xr) ∧ rest = xr ++ Char.ofNat 10 :: t2 := by
  obtain ⟨h1, h2, h3, hn, hrest⟩ := matchCitation_some_elim h
  obtain ⟨h1x, hx6⟩ := supMarker_cross t2 h1 hne
  have hdrop : (x ++ Char.ofNat 10 :: t2).drop 6 = x.drop 6 ++ Char.ofNat 10 :: t2 :=
    List.drop_append_of_le_length hx6
  have htw : ((x ++ Char.ofNat 10 :: t2).drop 6).takeWhile Char.isDigit =
      (x.drop 6).takeWhile Char.isDigit := by
    rw [hdrop]; exact takeWhile_digits_append _ _
  have hdw : ((x ++ Char.ofNat 10 :: t2).drop 6).dropWhile Char.isDigit =
      (x.drop 6).dropWhile Char.isDigit ++ Char.ofNat 10 :: t2 := by
    rw [hdrop]; exact dropWhile_digits_append _ _
  rw [hdw] at h3
  obtain ⟨h3x, h7⟩ := supClose_cross t2 h3
  have h2x : (x.drop 6).takeWhile Char.isDigit ≠ [] := by rw [htw] at h2; exact h2
  refine ⟨((x.drop 6).dropWhile Char.isDigit).drop 7, ?_, ?_⟩
  · rw [matchCitation_some_intro h1x h2x h3x, hn, htw]
  · rw [hrest, hdw, List.drop_append_of_le_length h7]

theorem scanCitations_append : ∀ (x t2 : Text),
    scanCitations (x ++ Char.ofNat 10 :: t2) =
      scanCitations x ++ scanCitations (Char.ofNat 10 :: t2)
  | [], t2 => by simp [scanCitations_nil]
  | c :: cs, t2 => by
    cases hm : matchCitation ((c :: cs) ++ Char.ofNat 10 :: t2) with
    | some val =>
      obtain ⟨n, rest⟩ := val
      obtain ⟨xr, hx, hrest⟩ := matchCitation_cross t2 (List.cons_ne_nil c cs) hm
      have heq : scanCitations ((c :: cs) ++ Char.ofNat 10 :: t2) =
          n :: scanCitations (xr ++ Char.ofNat 10 :: t2) := by
        rw [List.cons_append] at hm ⊢
        rw [scanCitations_cons_some hm, hrest]
      rw [heq, scanCitations_append xr t2, scanCitations_cons_some hx]
      simp
    | none =>
      have hxnone : matchCitation (c :: cs) = none := by
        cases hx : matchCitation (c :: cs) with
        | none => rfl
        | some val =>
          obtain ⟨n2, xr⟩ := val
          have hext := matchCitation_extend t2 hx
          rw [hext] at hm
          cases hm
      have h1 : scanCitations ((c :: cs) ++ Char.ofNat 10 :: t2) =
          scanCitations (cs ++ Char.ofNat 10 :: t2) := by
        rw [List.cons_append]
        rw [List.cons_append] at hm
        exact scanCitations_cons_none hm
      rw [h1, scanCitations_append cs t2, scanCitations_cons_none hxnone]
termination_by x _ => x.length
decreasing_by
  · exact Nat.lt_succ_self cs.length
  · exact matchCitation_length hx

theorem referencesSection_eq_cons (ws : List Doc) :
    referencesSection ws =
      Char.ofNat 10 ::
        ("\n---\n**References**\n".data ++ (refLines 1 (sourcesList ws)).flatten) := rfl

/-- C4 (amended): the pipeline extracts citation numbers only to log them and
never rewrites the completion output, so every marker in the final answer is
in range exactly when the completion's own markers are.  Amended claim: for
every working set and completion output whose citation markers all lie in
`1..len(WorkingSet)`, and whose appended references section contains no
citation marker (true for ordinary source labels), every inline citation
marker `[n]` in the final answer satisfies `1 <= n <= len(WorkingSet)`. -/
theorem citations_in_range (complete : Text → Text) (query : Text) (ws : List Doc)
    (hmodel : ∀ n ∈ extractCitations (complete (citationPrompt query ws)),
      1 ≤ n ∧ n ≤ ws.length)
    (hrefs : scanCitations (referencesSection ws) = []) :
    ∀ n ∈ extractCitations (ragAnswer complete query ws), 1 ≤ n ∧ n ≤ ws.length := by
  intro n hn
  rw [mem_extractCitations] at hn
  unfold ragAnswer at hn
  rw [referencesSection_eq_cons ws, scanCitations_append,
    ← referencesSection_eq_cons ws, hrefs, List.append_nil] at hn
  exact hmodel n (mem_extractCitations.mpr hn)

/-- Witness for the amended C4: a completion answering `"X<sup>[1]</sup>."`
over the one-document working set yields a final answer whose only citation,
`[1]`, is in range. -/
theorem citations_in_range_witness : 1 ≤ 1 ∧ 1 ≤ wsOne.length :=
  citations_in_range (fun _ => "X<sup>[1]</sup>.".data) "q".data wsOne
    (by decide) (by decide) 1 (by decide)

/-- Counterexample to C4 as stated: nothing in the code enforces the bound —
a completion emitting `<sup>[99]</sup>` over a one-document working set
passes through to the final answer, which then carries the out-of-range
citation marker `[99]`. -/
theorem citations_out_of_range :
    99 ∈ extractCitations (ragAnswer (fun _ => "<sup>[99]</sup>".data) "q".data wsOne) ∧
    wsOne.length = 1 ∧ ¬ (99 ≤ wsOne.length) := by
  decide

/-- C9: hotspot analysis of an empty region is total — on a crop without
positive cells, `compute_zonal_statistics` returns the zeroed seven-key
record (count 0, every reported measure 0) and `detect_hotspots` returns the
empty list, for any threshold percentile, cluster-size bound and transform;
both functions are total, so no exception is raised. -/
theorem empty_region_total (m : Raster) (tr : Affine) (tp : Rat) (mcs : Nat)
    (h : validData m = []) :
    compute_zonal_statistics m =
      [("mean", .q 0), ("median", .q 0), ("std", .q 0), ("min", .q 0),
       ("max", .q 0), ("sum", .q 0), ("count", .q 0)] ∧
    detect_hotspots m tr tp mcs = [] := by
  constructor
  · simp [compute_zonal_statistics, h]
  · simp [detect_hotspots, h]

/-- Witness for C9: a concrete 2×2 all-zero crop. -/
theorem empty_region_total_witness :
    compute_zonal_statistics [[0, 0], [0, 0]] =
      [("mean", .q 0), ("median", .q 0), ("std", .q 0), ("min", .q 0),
       ("max", .q 0), ("sum", .q 0), ("count", .q 0)] ∧
    detect_hotspots [[0, 0], [0, 0]] ⟨1, 0, 0, 0, 1, 0⟩ 90 5 = [] :=
  empty_region_total [[0, 0], [0, 0]] ⟨1, 0, 0, 0, 1, 0⟩ 90 5 (by decide)

/-- C10: the statistics record of a crop without positive cells has exactly
the keys mean, median, std, min, max, sum, count; the three percentile keys
— present whenever at least one positive cell exists — are absent. -/
theorem empty_region_keys (m : Raster) :
    (validData m = [] →
      (compute_zonal_statistics m).map Prod.fst =
        ["mean", "median", "std", "min", "max", "sum", "count"] ∧
      "percentile_75" ∉ (compute_zonal_statistics m).map Prod.fst ∧
      "percentile_90" ∉ (compute_zonal_statistics m).map Prod.fst ∧
      "percentile_95" ∉ (compute_zonal_statistics m).map Prod.fst) ∧
    (validData m ≠ [] →
      "percentile_75" ∈ (compute_zonal_statistics m).map Prod.fst ∧
      "percentile_90" ∈ (compute_zonal_statistics m).map Prod.fst ∧
      "percentile_95" ∈ (compute_zonal_statistics m).map Prod.fst) := by
  constructor
  · intro hv
    refine ⟨?_, ?_, ?_, ?_⟩ <;> simp [compute_zonal_statistics, hv]
  · intro hv
    have hlen : (validData m).length ≠ 0 := by
      simpa [List.length_eq_zero] using hv
    refine ⟨?_, ?_, ?_⟩ <;> simp [compute_zonal_statistics, hlen]

/-- Witness for C10: the empty-region key list at an all-zero crop, and the
percentile keys at a crop with a positive cell. -/
theorem empty_region_keys_witness :
    (compute_zonal_statistics [[0]]).map Prod.fst =
      ["mean", "median", "std", "min", "max", "sum", "count"] ∧
    "percentile_75" ∈ (compute_zonal_statistics [[1]]).map Prod.fst :=
  ⟨((empty_region_keys [[0]]).1 (by decide)).1,
   ((empty_region_keys [[1]]).2 (by decide)).1⟩
